import Mathlib

/-!
Verification of the in-flight operation tracker (src/common/TrackedOp.cc):
the bounded dual-index history of completed ops (`OpHistory`), the sharded
live registry (`OpTracker`), and the slow-op detector built on
`visit_ops_in_flight` / `with_slow_ops_in_flight` / `check_ops_in_flight`.

Modelling conventions:
- `utime_t` timestamps and durations are modelled as `Nat` seconds, with the
  truncated subtraction of `Nat` standing in for `utime_t` subtraction.
- A `TrackedOpRef` (a pointer to a tracked op) is modelled by the record
  `TrackedOp`; pointer identity is the `id` field.
- A `std::set<pair<K, TrackedOpRef>>` is modelled as a list kept sorted by
  the lexicographic key `(K, id)`; `begin()` is the head of the list.
-/

/-- One tracked operation (`class TrackedOp`): identity, registration
sequence number, arrival time, frozen duration, the slow-warning backoff
multiplier, lifecycle state (0 = uninitialized, 1 = live, 2 = history),
description and current-event label. -/
structure TrackedOp where
  id : Nat
  seq : Nat := 0
  initiated : Nat
  duration : Nat := 0
  warn_interval_multiplier : Nat := 1
  state : Nat := 0
  desc : String := ""
  current : Option String := none
deriving DecidableEq, Repr

/-- Key of the `arrived` / `slow_op` sets: `(initiated_at, pointer)`. -/
def arrivalKey (op : TrackedOp) : Nat × Nat := (op.initiated, op.id)

/-- Key of the `duration` set: `(duration, pointer)`. -/
def durationKey (op : TrackedOp) : Nat × Nat := (op.duration, op.id)

/-- Strict lexicographic order on set keys (the order of
`std::pair<utime_t, TrackedOpRef>` / `std::pair<double, TrackedOpRef>`). -/
def keyLt (a b : Nat × Nat) : Prop := a.1 < b.1 ∨ (a.1 = b.1 ∧ a.2 < b.2)

instance (a b : Nat × Nat) : Decidable (keyLt a b) :=
  inferInstanceAs (Decidable (_ ∨ _))

/-- `std::set::insert`: ordered insertion, dropping an exact duplicate. -/
def insSorted (keyf : TrackedOp → Nat × Nat) (op : TrackedOp) :
    List TrackedOp → List TrackedOp
  | [] => [op]
  | x :: xs =>
    if keyLt (keyf op) (keyf x) then op :: x :: xs
    else if keyf op = keyf x then x :: xs
    else x :: insSorted keyf op xs

/-- `std::set::erase(value)`: remove the element whose key equals `k`. -/
def eraseKey (keyf : TrackedOp → Nat × Nat) (k : Nat × Nat) :
    List TrackedOp → List TrackedOp
  | [] => []
  | x :: xs => if keyf x = k then xs else x :: eraseKey keyf k xs

/-- `class OpHistory`: the three ordered sets `arrived`, `duration`,
`slow_op`, the shutdown flag and the four tunables. -/
structure OpHistory where
  arrived : List TrackedOp := []
  duration : List TrackedOp := []
  slow_op : List TrackedOp := []
  shutdown : Bool := false
  history_size : Nat
  history_duration : Nat
  history_slow_op_threshold : Nat
  history_slow_op_size : Nat
deriving DecidableEq, Repr

/-- First loop of `OpHistory::cleanup`: while `arrived` is non-empty and the
oldest arrival is older than `history_duration`, erase that op from
`duration` (by its `(duration, ptr)` key) and pop it from `arrived`. -/
def ageSweep (now hd : Nat) :
    List TrackedOp → List TrackedOp → List TrackedOp × List TrackedOp
  | [], dur => ([], dur)
  | a :: rest, dur =>
    if hd < now - a.initiated then
      ageSweep now hd rest (eraseKey durationKey (durationKey a) dur)
    else (a :: rest, dur)

/-- Second loop of `OpHistory::cleanup`: while `duration.size() >
history_size`, erase the front of `duration` from `arrived` (by its
`(initiated, ptr)` key) and pop it from `duration`. -/
def sizeSweep (hs : Nat) :
    List TrackedOp → List TrackedOp → List TrackedOp × List TrackedOp
  | arr, [] => (arr, [])
  | arr, d :: rest =>
    if hs < rest.length + 1 then
      sizeSweep hs (eraseKey arrivalKey (arrivalKey d) arr) rest
    else (arr, d :: rest)

/-- Third loop of `OpHistory::cleanup`: while `slow_op.size() >
history_slow_op_size`, erase the front element of `slow_op` (the code
erases by the key of `slow_op.begin()`, which is the head itself). -/
def slowSweep (ss : Nat) : List TrackedOp → List TrackedOp
  | [] => []
  | s :: rest => if ss < rest.length + 1 then slowSweep ss rest else s :: rest

/-- `OpHistory::cleanup(now)`: the age sweep, then the size sweep on the
surviving `arrived`/`duration`, then the slow sweep on `slow_op`. -/
def OpHistory.cleanup (h : OpHistory) (now : Nat) : OpHistory :=
  let p1 := ageSweep now h.history_duration h.arrived h.duration
  let p2 := sizeSweep h.history_size p1.1 p1.2
  { h with arrived := p2.1, duration := p2.2,
           slow_op := slowSweep h.history_slow_op_size h.slow_op }

/-- `OpHistory::insert(now, op)`: dropped silently when shut down;
otherwise insert into `duration` and `arrived`, into `slow_op` when
`duration >= history_slow_op_threshold`, then run `cleanup(now)`. -/
def OpHistory.insert (h : OpHistory) (now : Nat) (op : TrackedOp) : OpHistory :=
  if h.shutdown then h
  else
    OpHistory.cleanup
      { h with
        duration := insSorted durationKey op h.duration,
        arrived := insSorted arrivalKey op h.arrived,
        slow_op :=
          if h.history_slow_op_threshold ≤ op.duration then
            insSorted arrivalKey op h.slow_op
          else h.slow_op } now

/-- `OpHistory::dump_ops`: run `cleanup`, then emit the ops of `arrived`
(in ascending arrival order) that pass the filter (`filter_out` returning
`true` keeps the op). Returns the emitted ops and the updated history. -/
def OpHistory.dump_ops (h : OpHistory) (now : Nat) (keep : TrackedOp → Bool) :
    List TrackedOp × OpHistory :=
  let h' := h.cleanup now
  (h'.arrived.filter keep, h')

/-- The order `std::sort` uses on the collected
`pair<double, TrackedOpRef>` entries: lexicographic on `(duration, ptr)`. -/
def rDur (a b : TrackedOp) : Prop :=
  a.duration < b.duration ∨ (a.duration = b.duration ∧ a.id ≤ b.id)

instance (a b : TrackedOp) : Decidable (rDur a b) :=
  inferInstanceAs (Decidable (_ ∨ _))

instance : IsTotal TrackedOp rDur :=
  ⟨fun a b => by unfold rDur; omega⟩

instance : IsTrans TrackedOp rDur :=
  ⟨fun a b c hab hbc => by unfold rDur at *; omega⟩

/-- `OpHistory::dump_ops_by_duration`: run `cleanup`, collect the kept ops
of `arrived` into `durationvec`, sort ascending by `(duration, ptr)`, emit
in reverse (descending) order. Returns the emitted ops in emission order
and the updated history. -/
def OpHistory.dump_ops_by_duration (h : OpHistory) (now : Nat)
    (keep : TrackedOp → Bool) : List TrackedOp × OpHistory :=
  let h' := h.cleanup now
  let durationvec := h'.arrived.filter keep
  ((List.insertionSort rDur durationvec).reverse, h')

/-- `OpHistory::dump_slow_ops`: run `cleanup`, emit the kept ops of
`slow_op` in ascending arrival order. -/
def OpHistory.dump_slow_ops (h : OpHistory) (now : Nat)
    (keep : TrackedOp → Bool) : List TrackedOp × OpHistory :=
  let h' := h.cleanup now
  (h'.slow_op.filter keep, h')

/-- `OpHistory::on_shutdown`: clear the three sets, set `shutdown`. -/
def OpHistory.on_shutdown (h : OpHistory) : OpHistory :=
  { h with arrived := [], duration := [], slow_op := [], shutdown := true }

/-- One public `OpHistory` operation, for stating invariants over
sequences of operations. -/
inductive HistOp where
  | ins (now : Nat) (op : TrackedOp)
  | dmp (now : Nat) (keep : TrackedOp → Bool)
  | dmpDur (now : Nat) (keep : TrackedOp → Bool)
  | dmpSlow (now : Nat) (keep : TrackedOp → Bool)

/-- Run a sequence of `OpHistory` operations, keeping the state that each
one leaves behind (the dumps mutate the history through `cleanup`). -/
def runHist (h : OpHistory) : List HistOp → OpHistory
  | [] => h
  | .ins now op :: rest => runHist (h.insert now op) rest
  | .dmp now keep :: rest => runHist (h.dump_ops now keep).2 rest
  | .dmpDur now keep :: rest => runHist (h.dump_ops_by_duration now keep).2 rest
  | .dmpSlow now keep :: rest => runHist (h.dump_slow_ops now keep).2 rest

/-- The ids of the ops inserted by a sequence of operations. -/
def insIds : List HistOp → List Nat
  | [] => []
  | .ins _ op :: rest => op.id :: insIds rest
  | .dmp _ _ :: rest => insIds rest
  | .dmpDur _ _ :: rest => insIds rest
  | .dmpSlow _ _ :: rest => insIds rest

/-- `class OpTracker`: the sharded live registry (one `List TrackedOp` per
`ShardedTrackingData`, front = oldest), the sequence counter, the history
and the health-check tunables. -/
structure OpTracker where
  tracking_enabled : Bool
  num_optracker_shards : Nat
  seq : Nat := 0
  sharded_in_flight_list : List (List TrackedOp)
  history : OpHistory
  complaint_time : Nat := 0
  log_threshold : Nat := 0
deriving DecidableEq, Repr

/-- The list of ops of shard `j` (empty for an out-of-range index). -/
def getShard (tr : OpTracker) (j : Nat) : List TrackedOp :=
  tr.sharded_in_flight_list.getD j []

/-- Intrusive-list erase (`iterator_to` + `erase`): drop the node with the
given pointer identity. -/
def eraseById (i : Nat) : List TrackedOp → List TrackedOp
  | [] => []
  | x :: xs => if x.id = i then xs else x :: eraseById i xs

/-- `OpTracker::register_inflight_op`: refuse when tracking is disabled;
otherwise take `current_seq = ++seq`, append the op (stamped with
`current_seq`) to the back of shard `current_seq % num_optracker_shards`. -/
def OpTracker.register_inflight_op (tr : OpTracker) (op : TrackedOp) :
    OpTracker × Bool :=
  if !tr.tracking_enabled then (tr, false)
  else
    let current_seq := tr.seq + 1
    let shard_index := current_seq % tr.num_optracker_shards
    ({ tr with
        seq := current_seq,
        sharded_in_flight_list :=
          tr.sharded_in_flight_list.set shard_index
            (getShard tr shard_index ++ [{ op with seq := current_seq }]) },
     true)

/-- What `OpTracker::unregister_inflight_op` does with the op after removal
from its shard: `delete` it, or move it into the history. -/
inductive UnregResult where
  | destroyed
  | to_history
deriving DecidableEq, Repr

/-- `OpTracker::unregister_inflight_op`: remove the op from shard
`op.seq % num_optracker_shards`; when tracking is disabled the op is
deleted, otherwise its state becomes HISTORY (2) and it is inserted into
the history. -/
def OpTracker.unregister_inflight_op (tr : OpTracker) (op : TrackedOp)
    (now : Nat) : OpTracker × UnregResult :=
  let shard_index := op.seq % tr.num_optracker_shards
  let tr1 := { tr with
    sharded_in_flight_list :=
      tr.sharded_in_flight_list.set shard_index
        (eraseById op.id (getShard tr shard_index)) }
  if !tr.tracking_enabled then (tr1, .destroyed)
  else
    ({ tr1 with history := tr1.history.insert now { op with state := 2 } },
     .to_history)

/-- The per-shard loop of `OpTracker::dump_ops_in_flight`: when
`print_only_blocked`, `break` at the first op whose age is at most
`complaint_time`; ops rejected by the filter are skipped with `continue`. -/
def dumpShardOps (only_blocked : Bool) (now ct : Nat)
    (keep : TrackedOp → Bool) : List TrackedOp → List TrackedOp
  | [] => []
  | op :: rest =>
    if only_blocked && decide (now - op.initiated ≤ ct) then []
    else if keep op then op :: dumpShardOps only_blocked now ct keep rest
    else dumpShardOps only_blocked now ct keep rest

/-- The structured output of `OpTracker::dump_ops_in_flight`: the emitted
ops, the `complaint_time` field (present only when `print_only_blocked`)
and the trailing counter (`num_blocked_ops` / `num_ops`). -/
structure InFlightDump where
  ops : List TrackedOp
  complaint_time_field : Option Nat
  num_field : Nat
deriving DecidableEq, Repr

/-- `OpTracker::dump_ops_in_flight`: `none` when tracking is disabled;
otherwise walk the shards in order, emitting per `dumpShardOps`, and close
with `complaint_time`/`num_blocked_ops` (or `num_ops`). -/
def OpTracker.dump_ops_in_flight (tr : OpTracker) (now : Nat)
    (print_only_blocked : Bool) (keep : TrackedOp → Bool) :
    Option InFlightDump :=
  if !tr.tracking_enabled then none
  else
    let ops := (tr.sharded_in_flight_list.map
      (dumpShardOps print_only_blocked now tr.complaint_time keep)).flatten
    some { ops := ops,
           complaint_time_field :=
             if print_only_blocked then some tr.complaint_time else none,
           num_field := ops.length }

/-- A visitor as passed to `OpTracker::visit_ops_in_flight`: it may carry
state (the captured locals of the C++ lambda), may mutate the visited op,
and returns `true` to continue the current shard. -/
def Visitor (σ : Type) := σ → TrackedOp → σ × TrackedOp × Bool

/-- Inner loop of `visit_ops_in_flight`: iterate one shard front-to-back;
a `false` from the visitor breaks out of this shard only. -/
def visitShard {σ : Type} (v : Visitor σ) :
    σ → List TrackedOp → σ × List TrackedOp
  | s, [] => (s, [])
  | s, op :: rest =>
    let r := v s op
    if r.2.2 then
      let q := visitShard v r.1 rest
      (q.1, r.2.1 :: q.2)
    else (r.1, r.2.1 :: rest)

/-- Outer loop of `visit_ops_in_flight`: every shard is visited, in index
order, regardless of how the visitor left the previous shard. -/
def visitShards {σ : Type} (v : Visitor σ) :
    σ → List (List TrackedOp) → σ × List (List TrackedOp)
  | s, [] => (s, [])
  | s, sh :: rest =>
    let p := visitShard v s sh
    let q := visitShards v p.1 rest
    (q.1, p.2 :: q.2)

/-- The `oldest_op` computation of `visit_ops_in_flight`: start from `now`
and lower it to each non-empty shard's front `initiated_at`. -/
def oldest_front (tr : OpTracker) (now : Nat) : Nat :=
  tr.sharded_in_flight_list.foldl
    (fun acc sh =>
      match sh with
      | [] => acc
      | f :: _ => if f.initiated < acc then f.initiated else acc) now

/-- The `total_ops_in_flight` accumulation of `visit_ops_in_flight`. -/
def total_ops_in_flight (tr : OpTracker) : Nat :=
  (tr.sharded_in_flight_list.map List.length).sum

/-- The front `initiated_at` of each non-empty shard, in shard order. -/
def frontTimes (tr : OpTracker) : List Nat :=
  tr.sharded_in_flight_list.filterMap (fun sh => sh.head?.map TrackedOp.initiated)

/-- `OpTracker::visit_ops_in_flight(oldest_secs, visit)`: `false` when
tracking is disabled or no op is live (leaving `oldest_secs` untouched);
otherwise `oldest_secs` is overwritten with `now - oldest_op` and, when it
is below `complaint_time`, the result is `false`; otherwise every shard is
visited and the result is `true`. Returns
`(result, oldest_secs, visitor state, shards after visiting)`. -/
def OpTracker.visit_ops_in_flight {σ : Type} (tr : OpTracker) (now : Nat)
    (oldest0 : Nat) (v : Visitor σ) (s0 : σ) :
    Bool × Nat × σ × List (List TrackedOp) :=
  if !tr.tracking_enabled then (false, oldest0, s0, tr.sharded_in_flight_list)
  else if total_ops_in_flight tr = 0 then
    (false, oldest0, s0, tr.sharded_in_flight_list)
  else
    let oldest_secs := now - oldest_front tr now
    if oldest_secs < tr.complaint_time then
      (false, oldest_secs, s0, tr.sharded_in_flight_list)
    else
      let p := visitShards v s0 tr.sharded_in_flight_list
      (true, oldest_secs, p.1, p.2)

/-- The `check` lambda of `OpTracker::with_slow_ops_in_flight`, carrying
its captured locals `(slow, warned, on_warn state)`: stop the shard at the
first op no older than `too_old = now - complaint_time`; count every older
op as slow; warn (through `on_warn`) only below `log_threshold` and only
when the op's backoff deadline `initiated + complaint_time * multiplier`
has passed. -/
def checkStep {ω : Type} (now ct th : Nat)
    (on_warn : ω → TrackedOp → ω × TrackedOp) : Visitor (Nat × Nat × ω) :=
  fun st op =>
    if now - ct ≤ op.initiated then (st, op, false)
    else
      let slow := st.1 + 1
      if th ≤ st.2.1 then ((slow, st.2.1, st.2.2), op, true)
      else if now ≤ op.initiated + ct * op.warn_interval_multiplier then
        ((slow, st.2.1, st.2.2), op, true)
      else
        let r := on_warn st.2.2 op
        ((slow, st.2.1 + 1, r.1), r.2, true)

/-- `OpTracker::with_slow_ops_in_flight`: run `visit_ops_in_flight` with
the `check` lambda. Returns `(result, oldest_secs, slow count, on_warn
state, shards after visiting)`. -/
def OpTracker.with_slow_ops_in_flight {ω : Type} (tr : OpTracker)
    (now oldest0 : Nat) (on_warn : ω → TrackedOp → ω × TrackedOp) (w0 : ω) :
    Bool × Nat × Nat × ω × List (List TrackedOp) :=
  let r := tr.visit_ops_in_flight now oldest0
    (checkStep now tr.complaint_time tr.log_threshold on_warn) (0, 0, w0)
  (r.1, r.2.1, r.2.2.1.1, r.2.2.1.2.2, r.2.2.2)

/-- Modelled from the spec: `TrackedOp::state_string` (declared in
TrackedOp.h, which is not part of the sources) — the textual name of the
op's lifecycle state, used in a warning line when no event label is set. -/
def state_str (s : Nat) : String :=
  if s = 2 then "history" else if s = 1 then "live" else "uninitialized"

/-- The warning line built by the `warn_on_slow_op` lambda of
`OpTracker::check_ops_in_flight`. -/
def warnLine (now : Nat) (op : TrackedOp) : String :=
  "slow request " ++ toString (now - op.initiated) ++
    " seconds old, received at " ++ toString op.initiated ++ ": " ++
    op.desc ++ " currently " ++
    (match op.current with
     | some c => c
     | none => state_str op.state)

/-- The `warn_on_slow_op` lambda of `OpTracker::check_ops_in_flight`:
append a human-readable warning line and double the op's
`warn_interval_multiplier`. -/
def warn_on_slow_op (now : Nat) :
    List String → TrackedOp → List String × TrackedOp :=
  fun warnings op =>
    (warnings ++ [warnLine now op],
     { op with warn_interval_multiplier := op.warn_interval_multiplier * 2 })

/-- The outcome of `OpTracker::check_ops_in_flight`: the return value, the
summary out-parameter (`none` when not assigned), the warnings vector, the
`num_slow_ops` out-parameter and the shards after the visit. -/
structure CheckResult where
  ok : Bool
  summary : Option String
  warnings : List String
  num_slow_ops : Option Nat
  shards : List (List TrackedOp)
deriving DecidableEq, Repr

/-- `OpTracker::check_ops_in_flight(summary, warnings, num_slow_ops)`:
run `with_slow_ops_in_flight` with `warn_on_slow_op`; on success format
the summary string. The local counter `warned` of this function is
initialized to 0 and never incremented anywhere in the function, which is
what the summary interpolates. -/
def OpTracker.check_ops_in_flight (tr : OpTracker) (now : Nat)
    (warnings0 : List String) : CheckResult :=
  let warned : Nat := 0
  let r := tr.with_slow_ops_in_flight now 0 (warn_on_slow_op now) warnings0
  if r.1 then
    { ok := true,
      summary := some (toString r.2.2.1 ++ " slow requests, " ++
        toString warned ++ " included below; oldest blocked for > " ++
        toString r.2.1 ++ " secs"),
      warnings := r.2.2.2.1,
      num_slow_ops := some r.2.2.1,
      shards := r.2.2.2.2 }
  else
    { ok := false, summary := none, warnings := r.2.2.2.1,
      num_slow_ops := none, shards := r.2.2.2.2 }

/-! Helper lemmas about the set model. -/

/-- The ops of a history set have pairwise distinct pointer identities. -/
def NodupIds (l : List TrackedOp) : Prop := (l.map TrackedOp.id).Nodup

instance (l : List TrackedOp) : Decidable (NodupIds l) :=
  inferInstanceAs (Decidable ((l.map TrackedOp.id).Nodup))

theorem eraseKey_sublist (keyf : TrackedOp → Nat × Nat) (k : Nat × Nat) :
    ∀ l : List TrackedOp, List.Sublist (eraseKey keyf k l) l := by
  intro l
  induction l with
  | nil => simp [eraseKey]
  | cons x xs ih =>
    simp only [eraseKey]
    split
    · exact List.sublist_cons_self x xs
    · exact List.Sublist.cons₂ x ih

theorem eraseKey_eq_erase (keyf : TrackedOp → Nat × Nat) (a : TrackedOp) :
    ∀ l : List TrackedOp, (∀ b ∈ l, keyf b = keyf a → b = a) →
      eraseKey keyf (keyf a) l = l.erase a := by
  intro l
  induction l with
  | nil => intro _; rfl
  | cons x xs ih =>
    intro h
    by_cases hk : keyf x = keyf a
    · have hx : x = a := h x (List.mem_cons_self x xs) hk
      subst hx
      simp [eraseKey, List.erase_cons_head]
    · have hxa : x ≠ a := fun he => hk (he ▸ rfl)
      simp only [eraseKey, if_neg hk, List.erase_cons]
      rw [if_neg (by simpa using hxa),
        ih (fun b hb hkb => h b (List.mem_cons_of_mem x hb) hkb)]

theorem perm_eraseKey_of_perm_cons (keyf : TrackedOp → Nat × Nat)
    {a : TrackedOp} {l r : List TrackedOp} (hperm : l.Perm (a :: r))
    (huniq : ∀ b ∈ l, keyf b = keyf a → b = a) :
    (eraseKey keyf (keyf a) l).Perm r := by
  rw [eraseKey_eq_erase keyf a l huniq]
  have h := hperm.erase a
  rwa [List.erase_cons_head] at h

theorem insSorted_perm (keyf : TrackedOp → Nat × Nat) (op : TrackedOp) :
    ∀ l : List TrackedOp, (∀ b ∈ l, keyf b ≠ keyf op) →
      (insSorted keyf op l).Perm (op :: l) := by
  intro l
  induction l with
  | nil => intro _; exact List.Perm.refl _
  | cons x xs ih =>
    intro h
    simp only [insSorted]
    split
    · exact List.Perm.refl _
    · split
      · next heq => exact absurd heq.symm (h x (List.mem_cons_self x xs))
      · exact ((ih (fun b hb => h b (List.mem_cons_of_mem x hb))).cons x).trans
          (List.Perm.swap op x xs)

theorem insSorted_subset (keyf : TrackedOp → Nat × Nat) (op : TrackedOp) :
    ∀ l : List TrackedOp, ∀ y ∈ insSorted keyf op l, y ∈ op :: l := by
  intro l
  induction l with
  | nil => intro y hy; simpa [insSorted] using hy
  | cons x xs ih =>
    intro y hy
    by_cases h1 : keyLt (keyf op) (keyf x)
    · simp only [insSorted, if_pos h1] at hy
      exact hy
    · by_cases h2 : keyf op = keyf x
      · simp only [insSorted, if_neg h1, if_pos h2] at hy
        exact List.mem_cons_of_mem op hy
      · simp only [insSorted, if_neg h1, if_neg h2] at hy
        rcases List.mem_cons.mp hy with hy' | hy'
        · subst hy'
          exact List.mem_cons_of_mem op (List.mem_cons_self y xs)
        · rcases List.mem_cons.mp (ih y hy') with hy2 | hy2
          · simp [hy2]
          · simp [List.mem_cons_of_mem, hy2]

theorem arrivalKey_id {a b : TrackedOp} (h : arrivalKey a = arrivalKey b) :
    a.id = b.id := congrArg Prod.snd h

theorem durationKey_id {a b : TrackedOp} (h : durationKey a = durationKey b) :
    a.id = b.id := congrArg Prod.snd h

theorem nodupIds_unique {l : List TrackedOp} (hn : NodupIds l) {b c : TrackedOp}
    (hb : b ∈ l) (hc : c ∈ l) (h : b.id = c.id) : b = c :=
  List.inj_on_of_nodup_map hn hb hc h

theorem nodupIds_of_sublist {l l' : List TrackedOp} (hs : List.Sublist l' l)
    (hn : NodupIds l) : NodupIds l' :=
  List.Nodup.sublist (List.Sublist.map TrackedOp.id hs) hn

/-! Lemmas about the three eviction sweeps. -/

theorem ageSweep_pres (now hd : Nat) :
    ∀ (arr dur : List TrackedOp), arr.Perm dur → NodupIds arr →
      (ageSweep now hd arr dur).1.Perm (ageSweep now hd arr dur).2 ∧
        NodupIds (ageSweep now hd arr dur).1 := by
  intro arr
  induction arr with
  | nil =>
    intro dur hp hn
    exact ⟨hp, hn⟩
  | cons a rest ih =>
    intro dur hp hn
    by_cases hc : hd < now - a.initiated
    · simp only [ageSweep, if_pos hc]
      apply ih
      · refine ((perm_eraseKey_of_perm_cons durationKey hp.symm ?_).symm)
        intro b hb hkb
        have hbmem : b ∈ a :: rest := (hp.symm.mem_iff).mp hb
        rcases List.mem_cons.mp hbmem with h' | h'
        · exact h'
        · exact nodupIds_unique hn (List.mem_cons_of_mem a h')
            (List.mem_cons_self a rest) (durationKey_id hkb)
      · exact nodupIds_of_sublist (List.sublist_cons_self a rest) hn
    · simp only [ageSweep, if_neg hc]
      exact ⟨hp, hn⟩

theorem ageSweep_fst_subset (now hd : Nat) :
    ∀ (arr dur : List TrackedOp), ∀ x ∈ (ageSweep now hd arr dur).1, x ∈ arr := by
  intro arr
  induction arr with
  | nil =>
    intro dur x hx
    exact hx
  | cons a rest ih =>
    intro dur x hx
    by_cases hc : hd < now - a.initiated
    · simp only [ageSweep, if_pos hc] at hx
      exact List.mem_cons_of_mem a (ih _ x hx)
    · simp only [ageSweep, if_neg hc] at hx
      exact hx

theorem ageSweep_snd_sublist (now hd : Nat) :
    ∀ (arr dur : List TrackedOp),
      List.Sublist (ageSweep now hd arr dur).2 dur := by
  intro arr
  induction arr with
  | nil =>
    intro dur
    exact List.Sublist.refl dur
  | cons a rest ih =>
    intro dur
    by_cases hc : hd < now - a.initiated
    · simp only [ageSweep, if_pos hc]
      exact List.Sublist.trans (ih _) (eraseKey_sublist _ _ dur)
    · simp only [ageSweep, if_neg hc]
      exact List.Sublist.refl dur

theorem ageSweep_fst_filter (now hd : Nat) :
    ∀ (arr dur : List TrackedOp),
      List.Pairwise (fun a b : TrackedOp => a.initiated ≤ b.initiated) arr →
      (ageSweep now hd arr dur).1 =
        arr.filter (fun op => decide (now - op.initiated ≤ hd)) := by
  intro arr
  induction arr with
  | nil =>
    intro dur _
    rfl
  | cons a rest ih =>
    intro dur hsorted
    by_cases hc : hd < now - a.initiated
    · simp only [ageSweep, if_pos hc]
      rw [ih _ (List.Pairwise.of_cons hsorted), List.filter_cons,
        if_neg (by simp only [decide_eq_true_eq]; omega)]
    · simp only [ageSweep, if_neg hc]
      rw [List.filter_cons, if_pos (by simpa using Nat.le_of_not_lt hc)]
      congr 1
      refine (List.filter_eq_self.mpr ?_).symm
      intro x hx
      have h1 : a.initiated ≤ x.initiated :=
        (List.pairwise_cons.mp hsorted).1 x hx
      have h2 : now - x.initiated ≤ now - a.initiated :=
        Nat.sub_le_sub_left h1 now
      simpa using Nat.le_trans h2 (Nat.le_of_not_lt hc)

theorem sizeSweep_pres (hs : Nat) :
    ∀ (dur arr : List TrackedOp), arr.Perm dur → NodupIds arr →
      (sizeSweep hs arr dur).1.Perm (sizeSweep hs arr dur).2 ∧
        NodupIds (sizeSweep hs arr dur).1 := by
  intro dur
  induction dur with
  | nil =>
    intro arr hp hn
    exact ⟨hp, hn⟩
  | cons d rest ih =>
    intro arr hp hn
    by_cases hc : hs < rest.length + 1
    · simp only [sizeSweep, if_pos hc]
      have hd_mem : d ∈ arr := (hp.mem_iff).mpr (List.mem_cons_self d rest)
      have hperm : (eraseKey arrivalKey (arrivalKey d) arr).Perm rest := by
        refine perm_eraseKey_of_perm_cons arrivalKey hp ?_
        intro b hb hkb
        exact nodupIds_unique hn hb hd_mem (arrivalKey_id hkb)
      exact ih _ hperm (nodupIds_of_sublist (eraseKey_sublist _ _ arr) hn)
    · simp only [sizeSweep, if_neg hc]
      exact ⟨hp, hn⟩

theorem sizeSweep_fst_subset (hs : Nat) :
    ∀ (dur arr : List TrackedOp), ∀ x ∈ (sizeSweep hs arr dur).1, x ∈ arr := by
  intro dur
  induction dur with
  | nil =>
    intro arr x hx
    exact hx
  | cons d rest ih =>
    intro arr x hx
    by_cases hc : hs < rest.length + 1
    · simp only [sizeSweep, if_pos hc] at hx
      exact (eraseKey_sublist _ _ arr).subset (ih _ x hx)
    · simp only [sizeSweep, if_neg hc] at hx
      exact hx

theorem sizeSweep_snd_drop (hs : Nat) :
    ∀ (dur arr : List TrackedOp),
      (sizeSweep hs arr dur).2 = dur.drop (dur.length - hs) := by
  intro dur
  induction dur with
  | nil =>
    intro arr
    simp [sizeSweep]
  | cons d rest ih =>
    intro arr
    by_cases hc : hs < rest.length + 1
    · simp only [sizeSweep, if_pos hc]
      rw [ih]
      have h1 : (d :: rest).length - hs = (rest.length - hs) + 1 := by
        simp only [List.length_cons]
        omega
      rw [h1, List.drop_succ_cons]
    · simp only [sizeSweep, if_neg hc]
      have h1 : (d :: rest).length - hs = 0 := by
        simp only [List.length_cons]
        omega
      rw [h1, List.drop_zero]

theorem ids_subset {l l' : List TrackedOp} (hsub : ∀ x ∈ l', x ∈ l) :
    ∀ i ∈ l'.map TrackedOp.id, i ∈ l.map TrackedOp.id := by
  intro i hi
  rcases List.mem_map.mp hi with ⟨x, hx, rfl⟩
  exact List.mem_map_of_mem _ (hsub x hx)

theorem slowSweep_drop (ss : Nat) :
    ∀ l : List TrackedOp, slowSweep ss l = l.drop (l.length - ss) := by
  intro l
  induction l with
  | nil => simp [slowSweep]
  | cons s rest ih =>
    by_cases hc : ss < rest.length + 1
    · simp only [slowSweep, if_pos hc]
      rw [ih]
      have h1 : (s :: rest).length - ss = (rest.length - ss) + 1 := by
        simp only [List.length_cons]
        omega
      rw [h1, List.drop_succ_cons]
    · simp only [slowSweep, if_neg hc]
      have h1 : (s :: rest).length - ss = 0 := by
        simp only [List.length_cons]
        omega
      rw [h1, List.drop_zero]

/-! Preservation of the history invariants by `cleanup`, `insert` and the
dump operations. -/

theorem cleanup_pres (h : OpHistory) (now : Nat)
    (hp : h.arrived.Perm h.duration) (hn : NodupIds h.arrived) :
    (h.cleanup now).arrived.Perm (h.cleanup now).duration ∧
      NodupIds (h.cleanup now).arrived ∧
      (h.cleanup now).arrived.length ≤ h.history_size ∧
      (h.cleanup now).slow_op.length ≤ h.history_slow_op_size := by
  have h1 := ageSweep_pres now h.history_duration h.arrived h.duration hp hn
  have h2 := sizeSweep_pres h.history_size _ _ h1.1 h1.2
  have hdrop := sizeSweep_snd_drop h.history_size
    (ageSweep now h.history_duration h.arrived h.duration).2
    (ageSweep now h.history_duration h.arrived h.duration).1
  have hslow := slowSweep_drop h.history_slow_op_size h.slow_op
  refine ⟨h2.1, h2.2, ?_, ?_⟩
  · have hlen := h2.1.length_eq
    show (sizeSweep h.history_size
      (ageSweep now h.history_duration h.arrived h.duration).1
      (ageSweep now h.history_duration h.arrived h.duration).2).1.length ≤
        h.history_size
    rw [hlen, hdrop, List.length_drop]
    omega
  · show (slowSweep h.history_slow_op_size h.slow_op).length ≤ _
    rw [hslow, List.length_drop]
    omega

theorem cleanup_arrived_subset (h : OpHistory) (now : Nat) :
    ∀ x ∈ (h.cleanup now).arrived, x ∈ h.arrived := by
  intro x hx
  exact ageSweep_fst_subset now h.history_duration h.arrived h.duration _
    (sizeSweep_fst_subset h.history_size _ _ x hx)

theorem cleanup_config (h : OpHistory) (now : Nat) :
    (h.cleanup now).history_size = h.history_size ∧
      (h.cleanup now).history_slow_op_size = h.history_slow_op_size :=
  ⟨rfl, rfl⟩

/-- The combined invariant of C3 plus the configuration bookkeeping. -/
def HistInv (hs ss : Nat) (h : OpHistory) : Prop :=
  h.arrived.Perm h.duration ∧ NodupIds h.arrived ∧
    h.arrived.length ≤ hs ∧ h.slow_op.length ≤ ss ∧
    h.history_size = hs ∧ h.history_slow_op_size = ss

theorem histInv_insert {hs ss : Nat} {h : OpHistory} (now : Nat)
    (op : TrackedOp) (hi : HistInv hs ss h)
    (hfresh : op.id ∉ h.arrived.map TrackedOp.id) :
    HistInv hs ss (h.insert now op) := by
  obtain ⟨hp, hn, hb1, hb2, hc1, hc2⟩ := hi
  by_cases hsd : h.shutdown
  · simp only [OpHistory.insert, if_pos hsd]
    exact ⟨hp, hn, hb1, hb2, hc1, hc2⟩
  · simp only [OpHistory.insert, if_neg hsd]
    have hfa : ∀ b ∈ h.arrived, arrivalKey b ≠ arrivalKey op := by
      intro b hb hk
      exact hfresh (arrivalKey_id hk ▸ List.mem_map_of_mem TrackedOp.id hb)
    have hfd : ∀ b ∈ h.duration, durationKey b ≠ durationKey op := by
      intro b hb hk
      have : b ∈ h.arrived := (hp.mem_iff).mpr hb
      exact hfresh (durationKey_id hk ▸ List.mem_map_of_mem TrackedOp.id this)
    have hpa : (insSorted arrivalKey op h.arrived).Perm (op :: h.arrived) :=
      insSorted_perm arrivalKey op h.arrived hfa
    have hpd : (insSorted durationKey op h.duration).Perm (op :: h.duration) :=
      insSorted_perm durationKey op h.duration hfd
    have hpmid : (insSorted arrivalKey op h.arrived).Perm
        (insSorted durationKey op h.duration) :=
      (hpa.trans (hp.cons op)).trans hpd.symm
    have hnmid : NodupIds (insSorted arrivalKey op h.arrived) := by
      unfold NodupIds
      rw [(hpa.map TrackedOp.id).nodup_iff]
      exact List.nodup_cons.mpr ⟨hfresh, hn⟩
    have := cleanup_pres
      { h with
        duration := insSorted durationKey op h.duration,
        arrived := insSorted arrivalKey op h.arrived,
        slow_op :=
          if h.history_slow_op_threshold ≤ op.duration then
            insSorted arrivalKey op h.slow_op
          else h.slow_op } now hpmid hnmid
    exact ⟨this.1, this.2.1, hc1 ▸ this.2.2.1, hc2 ▸ this.2.2.2, hc1, hc2⟩

theorem insert_arrived_subset (h : OpHistory) (now : Nat) (op : TrackedOp) :
    ∀ x ∈ (h.insert now op).arrived, x ∈ op :: h.arrived := by
  intro x hx
  by_cases hsd : h.shutdown
  · simp only [OpHistory.insert, if_pos hsd] at hx
    exact List.mem_cons_of_mem op hx
  · simp only [OpHistory.insert, if_neg hsd] at hx
    exact insSorted_subset arrivalKey op h.arrived x
      (cleanup_arrived_subset _ now x hx)

theorem histInv_cleanup {hs ss : Nat} {h : OpHistory} (now : Nat)
    (hi : HistInv hs ss h) : HistInv hs ss (h.cleanup now) := by
  obtain ⟨hp, hn, _, _, hc1, hc2⟩ := hi
  have := cleanup_pres h now hp hn
  exact ⟨this.1, this.2.1, hc1 ▸ this.2.2.1, hc2 ▸ this.2.2.2, hc1, hc2⟩

theorem runHist_histInv (hs ss : Nat) :
    ∀ (script : List HistOp) (h : OpHistory), HistInv hs ss h →
      (insIds script).Nodup →
      (∀ i ∈ insIds script, i ∉ h.arrived.map TrackedOp.id) →
      HistInv hs ss (runHist h script) := by
  intro script
  induction script with
  | nil =>
    intro h hi _ _
    exact hi
  | cons x rest ih =>
    intro h hi hnodup hfresh
    cases x with
    | ins now op =>
      have hop : op.id ∉ h.arrived.map TrackedOp.id :=
        hfresh op.id (List.mem_cons_self _ _)
      have hi' := histInv_insert now op hi hop
      refine ih _ hi' (List.Nodup.of_cons hnodup) ?_
      intro i himem hcontra
      have hsub := ids_subset (insert_arrived_subset h now op) i hcontra
      rcases List.mem_cons.mp hsub with h' | h'
      · subst h'
        exact (List.nodup_cons.mp hnodup).1 himem
      · exact hfresh i (List.mem_cons_of_mem _ himem) h'
    | dmp now keep =>
      refine ih _ (histInv_cleanup now hi) hnodup ?_
      intro i himem hcontra
      exact hfresh i himem (ids_subset (cleanup_arrived_subset h now) i hcontra)
    | dmpDur now keep =>
      refine ih _ (histInv_cleanup now hi) hnodup ?_
      intro i himem hcontra
      exact hfresh i himem (ids_subset (cleanup_arrived_subset h now) i hcontra)
    | dmpSlow now keep =>
      refine ih _ (histInv_cleanup now hi) hnodup ?_
      intro i himem hcontra
      exact hfresh i himem (ids_subset (cleanup_arrived_subset h now) i hcontra)

theorem pairwise_take_drop {α : Type} {R : α → α → Prop} {l : List α}
    (h : l.Pairwise R) (k : Nat) :
    ∀ a ∈ l.take k, ∀ b ∈ l.drop k, R a b := by
  have h2 : List.Pairwise R (l.take k ++ l.drop k) := by
    rw [List.take_append_drop]
    exact h
  exact (List.pairwise_append.mp h2).2.2

theorem cleanup_empty {h : OpHistory} (now : Nat) (h1 : h.arrived = [])
    (h2 : h.duration = []) (h3 : h.slow_op = []) : h.cleanup now = h := by
  obtain ⟨arr, dur, slow, sd, x1, x2, x3, x4⟩ := h
  simp only at h1 h2 h3
  subst h1
  subst h2
  subst h3
  rfl

theorem insert_shutdown {h : OpHistory} (now : Nat) (op : TrackedOp)
    (hsd : h.shutdown = true) : h.insert now op = h := by
  simp [OpHistory.insert, hsd]

theorem runHist_shutdown :
    ∀ (script : List HistOp) (h : OpHistory), h.arrived = [] →
      h.duration = [] → h.slow_op = [] → h.shutdown = true →
      (runHist h script).arrived = [] ∧ (runHist h script).duration = [] ∧
        (runHist h script).slow_op = [] ∧ (runHist h script).shutdown = true := by
  intro script
  induction script with
  | nil =>
    intro h h1 h2 h3 h4
    exact ⟨h1, h2, h3, h4⟩
  | cons x rest ih =>
    intro h h1 h2 h3 h4
    cases x with
    | ins now op =>
      simp only [runHist]
      rw [insert_shutdown now op h4]
      exact ih h h1 h2 h3 h4
    | dmp now keep =>
      simp only [runHist]
      have hd2 : (h.dump_ops now keep).2 = h := cleanup_empty now h1 h2 h3
      rw [hd2]
      exact ih h h1 h2 h3 h4
    | dmpDur now keep =>
      simp only [runHist]
      have hd2 : (h.dump_ops_by_duration now keep).2 = h :=
        cleanup_empty now h1 h2 h3
      rw [hd2]
      exact ih h h1 h2 h3 h4
    | dmpSlow now keep =>
      simp only [runHist]
      have hd2 : (h.dump_slow_ops now keep).2 = h := cleanup_empty now h1 h2 h3
      rw [hd2]
      exact ih h h1 h2 h3 h4

/-- An empty history with the given configuration, as constructed by
`OpHistory`'s constructor. -/
def initHistory (hs hd th ss : Nat) : OpHistory :=
  { history_size := hs, history_duration := hd,
    history_slow_op_threshold := th, history_slow_op_size := ss }

/-- C2: `OpHistory::cleanup` performs exactly three sweeps in order. The
first two conjuncts fix the order: `arrived`/`duration` are the result of
the size sweep applied to the result of the age sweep, and `slow_op` is
the result of the slow sweep alone (so the first two sweeps never touch
`slow`, and the slow sweep touches nothing else). Under the `std::set`
ordering invariants, the age sweep keeps in both sets exactly the ops
younger than `history_duration`; the size sweep drops from `duration` its
prefix — the smallest-duration ops — down to `history_size`, and leaves
`arrived` a permutation of the same survivors; the slow sweep drops from
`slow` its prefix — the smallest `initiated_at` ops — down to
`slow_history_size`. -/
theorem c2_cleanup_three_sweeps (h : OpHistory) (now : Nat)
    (hsa : List.Pairwise (fun a b => keyLt (arrivalKey a) (arrivalKey b)) h.arrived)
    (hsd : List.Pairwise (fun a b => keyLt (durationKey a) (durationKey b)) h.duration)
    (hss : List.Pairwise (fun a b => keyLt (arrivalKey a) (arrivalKey b)) h.slow_op)
    (hp : h.arrived.Perm h.duration) (hn : NodupIds h.arrived) :
    (h.cleanup now).arrived = (sizeSweep h.history_size
        (ageSweep now h.history_duration h.arrived h.duration).1
        (ageSweep now h.history_duration h.arrived h.duration).2).1 ∧
    (h.cleanup now).duration = (sizeSweep h.history_size
        (ageSweep now h.history_duration h.arrived h.duration).1
        (ageSweep now h.history_duration h.arrived h.duration).2).2 ∧
    (h.cleanup now).slow_op = slowSweep h.history_slow_op_size h.slow_op ∧
    (ageSweep now h.history_duration h.arrived h.duration).1 =
      h.arrived.filter (fun op => decide (now - op.initiated ≤ h.history_duration)) ∧
    (ageSweep now h.history_duration h.arrived h.duration).2.Perm
      (h.duration.filter (fun op => decide (now - op.initiated ≤ h.history_duration))) ∧
    (sizeSweep h.history_size
        (ageSweep now h.history_duration h.arrived h.duration).1
        (ageSweep now h.history_duration h.arrived h.duration).2).2 =
      (ageSweep now h.history_duration h.arrived h.duration).2.drop
        ((ageSweep now h.history_duration h.arrived h.duration).2.length -
          h.history_size) ∧
    (sizeSweep h.history_size
        (ageSweep now h.history_duration h.arrived h.duration).1
        (ageSweep now h.history_duration h.arrived h.duration).2).1.Perm
      (sizeSweep h.history_size
        (ageSweep now h.history_duration h.arrived h.duration).1
        (ageSweep now h.history_duration h.arrived h.duration).2).2 ∧
    (∀ a ∈ (ageSweep now h.history_duration h.arrived h.duration).2.take
        ((ageSweep now h.history_duration h.arrived h.duration).2.length -
          h.history_size),
      ∀ b ∈ (sizeSweep h.history_size
        (ageSweep now h.history_duration h.arrived h.duration).1
        (ageSweep now h.history_duration h.arrived h.duration).2).2,
        a.duration ≤ b.duration) ∧
    slowSweep h.history_slow_op_size h.slow_op =
      h.slow_op.drop (h.slow_op.length - h.history_slow_op_size) ∧
    (∀ a ∈ h.slow_op.take (h.slow_op.length - h.history_slow_op_size),
      ∀ b ∈ slowSweep h.history_slow_op_size h.slow_op,
        a.initiated ≤ b.initiated) := by
  have hage := ageSweep_pres now h.history_duration h.arrived h.duration hp hn
  have hsize := sizeSweep_pres h.history_size
    (ageSweep now h.history_duration h.arrived h.duration).2
    (ageSweep now h.history_duration h.arrived h.duration).1 hage.1 hage.2
  have hinit : List.Pairwise (fun a b : TrackedOp => a.initiated ≤ b.initiated)
      h.arrived := by
    refine hsa.imp ?_
    intro a b hab
    simp only [keyLt, arrivalKey] at hab
    omega
  have hfilter := ageSweep_fst_filter now h.history_duration h.arrived
    h.duration hinit
  have hdrop := sizeSweep_snd_drop h.history_size
    (ageSweep now h.history_duration h.arrived h.duration).2
    (ageSweep now h.history_duration h.arrived h.duration).1
  have hsdur : List.Pairwise (fun a b => keyLt (durationKey a) (durationKey b))
      (ageSweep now h.history_duration h.arrived h.duration).2 :=
    List.Pairwise.sublist
      (ageSweep_snd_sublist now h.history_duration h.arrived h.duration) hsd
  have hslowdrop := slowSweep_drop h.history_slow_op_size h.slow_op
  refine ⟨rfl, rfl, rfl, hfilter, ?_, hdrop, hsize.1, ?_, hslowdrop, ?_⟩
  · exact (hage.1.symm).trans (hfilter ▸ hp.filter _)
  · intro a ha b hb
    rw [hdrop] at hb
    have := pairwise_take_drop hsdur
      ((ageSweep now h.history_duration h.arrived h.duration).2.length -
        h.history_size) a ha b hb
    simp only [keyLt, durationKey] at this
    omega
  · intro a ha b hb
    rw [hslowdrop] at hb
    have := pairwise_take_drop hss
      (h.slow_op.length - h.history_slow_op_size) a ha b hb
    simp only [keyLt, arrivalKey] at this
    omega

/-- C3: for every sequence of `OpHistory` operations whose inserted ops
carry pairwise-distinct pointer identities (as distinct `TrackedOpRef`s
do), the state after running the sequence — in particular immediately
after each `insert` and each dump, which are the runs of the prefixes —
has `arrived` and `duration` holding exactly the same multiset of ops,
`|arrived| ≤ history_size` and `|slow_op| ≤ slow_history_size`. -/
theorem c3_history_invariants (hs hd th ss : Nat) (script : List HistOp)
    (hids : (insIds script).Nodup) :
    (runHist (initHistory hs hd th ss) script).arrived.Perm
        (runHist (initHistory hs hd th ss) script).duration ∧
      (runHist (initHistory hs hd th ss) script).arrived.length ≤ hs ∧
      (runHist (initHistory hs hd th ss) script).slow_op.length ≤ ss := by
  have hinv : HistInv hs ss (initHistory hs hd th ss) := by
    refine ⟨List.Perm.refl _, ?_, ?_, ?_, rfl, rfl⟩
    · simp [NodupIds, initHistory]
    · simp [initHistory]
    · simp [initHistory]
  have h := runHist_histInv hs ss script (initHistory hs hd th ss) hinv hids
    (by intro i _ hmem; simp [initHistory] at hmem)
  exact ⟨h.1, h.2.2.1, h.2.2.2.1⟩

/-- C4: after `OpHistory::on_shutdown`, the three sets are empty and stay
empty under every further sequence of operations, the shutdown flag stays
set, and any subsequent `insert` returns the state unchanged (the op is
dropped silently). -/
theorem c4_shutdown_forever (h : OpHistory) (script : List HistOp) :
    (runHist h.on_shutdown script).arrived = [] ∧
      (runHist h.on_shutdown script).duration = [] ∧
      (runHist h.on_shutdown script).slow_op = [] ∧
      (runHist h.on_shutdown script).shutdown = true ∧
      ∀ (now : Nat) (op : TrackedOp),
        (runHist h.on_shutdown script).insert now op =
          runHist h.on_shutdown script := by
  have hrun := runHist_shutdown script h.on_shutdown rfl rfl rfl rfl
  refine ⟨hrun.1, hrun.2.1, hrun.2.2.1, hrun.2.2.2, ?_⟩
  intro now op
  exact insert_shutdown now op hrun.2.2.2

/-- C5: `dump_ops_by_duration` first runs eviction (its resulting state is
exactly `cleanup now`), emits precisely the post-eviction ops kept by the
filter, and emits them in non-increasing duration order: every earlier
emitted op's duration is at least every later one's. -/
theorem c5_dump_by_duration_sorted (h : OpHistory) (now : Nat)
    (keep : TrackedOp → Bool) :
    (h.dump_ops_by_duration now keep).2 = h.cleanup now ∧
      (h.dump_ops_by_duration now keep).1.Perm
        ((h.cleanup now).arrived.filter keep) ∧
      List.Pairwise (fun a b : TrackedOp => b.duration ≤ a.duration)
        (h.dump_ops_by_duration now keep).1 := by
  refine ⟨rfl, ?_, ?_⟩
  · exact (List.reverse_perm _).trans (List.perm_insertionSort rDur _)
  · have hs := List.sorted_insertionSort rDur ((h.cleanup now).arrived.filter keep)
    have hp : List.Pairwise (fun a b : TrackedOp => a.duration ≤ b.duration)
        (List.insertionSort rDur ((h.cleanup now).arrived.filter keep)) := by
      refine hs.imp ?_
      intro a b hab
      unfold rDur at hab
      omega
    exact List.pairwise_reverse.mpr hp

/-- Sample completed ops used by the concrete witnesses. -/
def opW1 : TrackedOp := { id := 1, initiated := 1, duration := 5 }

/-- Second sample completed op. -/
def opW2 : TrackedOp := { id := 2, initiated := 2, duration := 3 }

/-- Third sample completed op. -/
def opW3 : TrackedOp := { id := 3, initiated := 8, duration := 9 }

/-- A concrete well-formed history state (sets sorted by their keys). -/
def sampleHist : OpHistory :=
  { arrived := [opW1, opW2, opW3]
    duration := [opW2, opW1, opW3]
    slow_op := [opW1, opW2]
    history_size := 1
    history_duration := 5
    history_slow_op_threshold := 3
    history_slow_op_size := 1 }

theorem c2_cleanup_witness :
    sampleHist.arrived.Perm sampleHist.duration ∧
      (ageSweep 8 sampleHist.history_duration sampleHist.arrived
          sampleHist.duration).1 =
        sampleHist.arrived.filter
          (fun op => decide (8 - op.initiated ≤ sampleHist.history_duration)) :=
  ⟨by decide,
   (c2_cleanup_three_sweeps sampleHist 8 (by decide) (by decide) (by decide)
     (by decide) (by decide)).2.2.2.1⟩

/-- A concrete sequence of history operations. -/
def sampleScript : List HistOp :=
  [HistOp.ins 5 { id := 1, initiated := 1, duration := 2 },
   HistOp.ins 6 { id := 2, initiated := 2, duration := 7 },
   HistOp.dmp 7 (fun _ => true),
   HistOp.ins 9 { id := 3, initiated := 3, duration := 1 }]

theorem c3_history_witness :
    (insIds sampleScript).Nodup ∧
      (runHist (initHistory 2 100 5 1) sampleScript).arrived.Perm
        (runHist (initHistory 2 100 5 1) sampleScript).duration ∧
      (runHist (initHistory 2 100 5 1) sampleScript).arrived.length ≤ 2 ∧
      (runHist (initHistory 2 100 5 1) sampleScript).slow_op.length ≤ 1 :=
  ⟨by decide, c3_history_invariants 2 100 5 1 sampleScript (by decide)⟩

/-- A live op registered at time 0 in a single-shard tracker. -/
def opLive : TrackedOp :=
  { id := 1, seq := 1, initiated := 0, state := 1, desc := "op" }

/-- A concrete tracker: one shard holding `opLive`, `complaint_time = 30`,
`log_threshold = 5` (scenario S1 at `t = 61`). -/
def sampleTracker : OpTracker :=
  { tracking_enabled := true
    num_optracker_shards := 1
    seq := 1
    sharded_in_flight_list := [[opLive]]
    history := initHistory 10 600 10 10
    complaint_time := 30
    log_threshold := 5 }

/-- C1 (code bug): at scenario S1's second check (`t = 61`, one op older
than `complaint_time`, one warning line appended), `check_ops_in_flight`
returns true and appends exactly one warning line, yet the summary string
reads `"1 slow requests, 0 included below; ..."`: the `<warned_count>`
field is the function's local `warned`, which is initialized to 0 and
never incremented, so it does not equal the number of warning lines
appended (1), contradicting the claim. -/
theorem c1_summary_warned_count_stuck_at_zero :
    (sampleTracker.check_ops_in_flight 61 []).ok = true ∧
      (sampleTracker.check_ops_in_flight 61 []).warnings.length = 1 ∧
      (sampleTracker.check_ops_in_flight 61 []).summary =
        some "1 slow requests, 0 included below; oldest blocked for > 61 secs" :=
  ⟨rfl, rfl, rfl⟩

/-- The per-shard loop of an `only_blocked` dump emits exactly the kept
ops of the longest prefix of blocked ops: the `break` fires at the first
op whose age is at most `complaint_time`, while the filter only skips. -/
theorem dumpShardOps_blocked (now ct : Nat) (keep : TrackedOp → Bool) :
    ∀ sh : List TrackedOp, dumpShardOps true now ct keep sh =
      (sh.takeWhile (fun op => decide (ct < now - op.initiated))).filter keep := by
  intro sh
  induction sh with
  | nil => rfl
  | cons op rest ih =>
    by_cases hb : now - op.initiated ≤ ct
    · have h1 : (true && decide (now - op.initiated ≤ ct)) = true := by simp [hb]
      have h2 : (decide (ct < now - op.initiated)) = false := by
        simp only [decide_eq_false_iff_not]
        omega
      have hL : dumpShardOps true now ct keep (op :: rest) = [] := by
        simp only [dumpShardOps]
        rw [if_pos h1]
      have hR : (op :: rest).takeWhile
          (fun op => decide (ct < now - op.initiated)) = [] := by
        rw [List.takeWhile_cons, h2]
        simp
      rw [hL, hR]
      rfl
    · have h1 : (true && decide (now - op.initiated ≤ ct)) = false := by simp [hb]
      have h2 : (decide (ct < now - op.initiated)) = true := by
        simp only [decide_eq_true_eq]
        omega
      have hL : dumpShardOps true now ct keep (op :: rest) =
          if keep op = true then op :: dumpShardOps true now ct keep rest
          else dumpShardOps true now ct keep rest := by
        simp only [dumpShardOps]
        rw [if_neg (by rw [h1]; exact Bool.false_ne_true)]
      have hR : (op :: rest).takeWhile
          (fun op => decide (ct < now - op.initiated)) =
          op :: rest.takeWhile (fun op => decide (ct < now - op.initiated)) := by
        rw [List.takeWhile_cons, if_pos h2]
      rw [hL, hR, List.filter_cons]
      by_cases hk : keep op
      · rw [if_pos hk, if_pos hk, ih]
      · rw [if_neg hk, if_neg hk, ih]

/-- C6: with `only_blocked = true` and tracking enabled, a dump of the
in-flight registry emits, shard by shard, exactly the kept ops of the
prefix of ops strictly older than `complaint_time` (iteration stops at the
first op whose age is at most `complaint_time`; filtered-out ops are
skipped without stopping), emits the `complaint_time` field and a
`num_blocked_ops` equal to the number of emitted ops; consequently every
emitted op satisfies `complaint_time < now - initiated_at`. -/
theorem c6_dump_only_blocked (tr : OpTracker) (now : Nat)
    (keep : TrackedOp → Bool) (htrack : tr.tracking_enabled = true)
    (_hfifo : ∀ sh ∈ tr.sharded_in_flight_list,
      List.Pairwise (fun a b : TrackedOp => a.initiated ≤ b.initiated) sh) :
    tr.dump_ops_in_flight now true keep = some
      { ops := (tr.sharded_in_flight_list.map (fun sh =>
          (sh.takeWhile (fun op =>
            decide (tr.complaint_time < now - op.initiated))).filter keep)).flatten
        complaint_time_field := some tr.complaint_time
        num_field := (tr.sharded_in_flight_list.map (fun sh =>
          (sh.takeWhile (fun op =>
            decide (tr.complaint_time < now - op.initiated))).filter keep)).flatten.length } ∧
    ∀ op ∈ (tr.sharded_in_flight_list.map (fun sh =>
        (sh.takeWhile (fun op =>
          decide (tr.complaint_time < now - op.initiated))).filter keep)).flatten,
      tr.complaint_time < now - op.initiated := by
  have hfun : dumpShardOps true now tr.complaint_time keep = fun sh =>
      (sh.takeWhile (fun op =>
        decide (tr.complaint_time < now - op.initiated))).filter keep :=
    funext (dumpShardOps_blocked now tr.complaint_time keep)
  constructor
  · simp only [OpTracker.dump_ops_in_flight, htrack, hfun]
    rfl
  · intro op hop
    rcases List.mem_flatten.mp hop with ⟨l, hl, hopl⟩
    rcases List.mem_map.mp hl with ⟨sh, _, rfl⟩
    have h1 : op ∈ sh.takeWhile (fun op =>
        decide (tr.complaint_time < now - op.initiated)) :=
      List.mem_of_mem_filter hopl
    simpa using List.mem_takeWhile_imp h1

/-- A single-shard tracker matching scenario S6: ops registered at
`t = 0, 50, 70` in one shard, `complaint_time = 30`. -/
def sampleTracker6 : OpTracker :=
  { tracking_enabled := true
    num_optracker_shards := 1
    sharded_in_flight_list :=
      [[{ id := 1, initiated := 0 }, { id := 2, initiated := 50 },
        { id := 3, initiated := 70 }]]
    history := initHistory 10 600 10 10
    complaint_time := 30 }

theorem c6_dump_witness :
    sampleTracker6.tracking_enabled = true ∧
      (∀ sh ∈ sampleTracker6.sharded_in_flight_list,
        List.Pairwise (fun a b : TrackedOp => a.initiated ≤ b.initiated) sh) ∧
      ∀ op ∈ (sampleTracker6.sharded_in_flight_list.map (fun sh =>
          (sh.takeWhile (fun op =>
            decide (sampleTracker6.complaint_time < 80 - op.initiated))).filter
            (fun _ => true))).flatten,
        sampleTracker6.complaint_time < 80 - op.initiated :=
  ⟨rfl, by decide,
   (c6_dump_only_blocked sampleTracker6 80 (fun _ => true) rfl (by decide)).2⟩

/-- The prefix of a shard a stop-on-`p`-false visitor actually visits: all
ops while `p` holds, plus the op on which the visitor returned stop. -/
def upTo (p : TrackedOp → Bool) : List TrackedOp → List TrackedOp
  | [] => []
  | x :: xs => if p x then x :: upTo p xs else [x]

/-- A visitor that records every op it is invoked on and asks to continue
exactly when `p` holds of the op. -/
def traceVisitor (p : TrackedOp → Bool) : Visitor (List TrackedOp) :=
  fun acc op => (acc ++ [op], op, p op)

theorem visitShard_trace (p : TrackedOp → Bool) :
    ∀ (sh : List TrackedOp) (acc : List TrackedOp),
      visitShard (traceVisitor p) acc sh = (acc ++ upTo p sh, sh) := by
  intro sh
  induction sh with
  | nil =>
    intro acc
    simp [visitShard, upTo]
  | cons op rest ih =>
    intro acc
    by_cases hp : p op
    · simp [visitShard, traceVisitor, upTo, hp, ih, List.append_assoc]
    · simp [visitShard, traceVisitor, upTo, hp]

theorem visitShards_trace (p : TrackedOp → Bool) :
    ∀ (shs : List (List TrackedOp)) (acc : List TrackedOp),
      visitShards (traceVisitor p) acc shs =
        (acc ++ (shs.map (upTo p)).flatten, shs) := by
  intro shs
  induction shs with
  | nil =>
    intro acc
    simp [visitShards]
  | cons sh rest ih =>
    intro acc
    simp [visitShards, visitShard_trace p sh acc, ih, List.append_assoc]

/-- The body of the `oldest_op` fold, over the list of front times. -/
def foldlMin (a : Nat) (l : List Nat) : Nat :=
  l.foldl (fun acc t => if t < acc then t else acc) a

theorem oldest_front_eq (tr : OpTracker) (now : Nat) :
    oldest_front tr now = foldlMin now (frontTimes tr) := by
  show List.foldl _ now tr.sharded_in_flight_list = _
  unfold frontTimes foldlMin
  generalize tr.sharded_in_flight_list = L
  induction L generalizing now with
  | nil => rfl
  | cons sh rest ih =>
    cases sh with
    | nil => simp [List.filterMap_cons, ih]
    | cons f _ => simp [List.filterMap_cons, ih]

theorem foldlMin_le (l : List Nat) :
    ∀ a : Nat, foldlMin a l ≤ a ∧ ∀ t ∈ l, foldlMin a l ≤ t := by
  induction l with
  | nil =>
    intro a
    exact ⟨Nat.le_refl a, by intro t ht; cases ht⟩
  | cons t rest ih =>
    intro a
    have hih := ih (if t < a then t else a)
    constructor
    · refine Nat.le_trans hih.1 ?_
      split
      · omega
      · exact Nat.le_refl a
    · intro u hu
      rcases List.mem_cons.mp hu with h' | h'
      · subst h'
        refine Nat.le_trans hih.1 ?_
        split
        · exact Nat.le_refl u
        · omega
      · exact hih.2 u h'

theorem foldlMin_mem (l : List Nat) :
    ∀ a : Nat, foldlMin a l = a ∨ foldlMin a l ∈ l := by
  induction l with
  | nil =>
    intro a
    exact Or.inl rfl
  | cons t rest ih =>
    intro a
    rcases ih (if t < a then t else a) with h' | h'
    · by_cases ht : t < a
      · right
        rw [show foldlMin a (t :: rest) = foldlMin (if t < a then t else a) rest from rfl,
          h', if_pos ht]
        exact List.mem_cons_self t rest
      · left
        rw [show foldlMin a (t :: rest) = foldlMin (if t < a then t else a) rest from rfl,
          h', if_neg ht]
    · right
      exact List.mem_cons_of_mem t h'

theorem frontTimes_ne_nil (tr : OpTracker)
    (h : total_ops_in_flight tr ≠ 0) : frontTimes tr ≠ [] := by
  unfold total_ops_in_flight at h
  unfold frontTimes
  revert h
  generalize tr.sharded_in_flight_list = L
  intro h
  induction L with
  | nil => simp at h
  | cons sh rest ih =>
    cases sh with
    | nil =>
      simp only [List.map_cons, List.length_nil, List.sum_cons, Nat.zero_add] at h
      simpa [List.filterMap_cons] using ih h
    | cons f _ =>
      simp [List.filterMap_cons]

/-- C7: `visit_ops_in_flight` returns false when tracking is disabled,
when no op is live, or when the oldest age is below `complaint_time`;
otherwise it returns true, writes `now` minus the minimum front
`initiated_at` over the shards into the out-parameter, and visits the
shards. The fifth conjunct shows the computed front time is a true
minimum over all non-empty shards (attained by one of them, at most every
one of them), not merely shard 0's front; the last conjunct shows that a
visitor requesting stop ends only the current shard: the visited trace is,
shard by shard, the prefix up to and including the stopping op. -/
theorem c7_visit_ops_in_flight {σ : Type} (tr : OpTracker) (now o0 : Nat)
    (v : Visitor σ) (s0 : σ) :
    (tr.tracking_enabled = false →
      tr.visit_ops_in_flight now o0 v s0 =
        (false, o0, s0, tr.sharded_in_flight_list)) ∧
    (total_ops_in_flight tr = 0 →
      tr.visit_ops_in_flight now o0 v s0 =
        (false, o0, s0, tr.sharded_in_flight_list)) ∧
    (tr.tracking_enabled = true → total_ops_in_flight tr ≠ 0 →
      now - oldest_front tr now < tr.complaint_time →
      tr.visit_ops_in_flight now o0 v s0 =
        (false, now - oldest_front tr now, s0, tr.sharded_in_flight_list)) ∧
    (tr.tracking_enabled = true → total_ops_in_flight tr ≠ 0 →
      tr.complaint_time ≤ now - oldest_front tr now →
      tr.visit_ops_in_flight now o0 v s0 =
        (true, now - oldest_front tr now,
          (visitShards v s0 tr.sharded_in_flight_list).1,
          (visitShards v s0 tr.sharded_in_flight_list).2)) ∧
    (total_ops_in_flight tr ≠ 0 → (∀ t ∈ frontTimes tr, t ≤ now) →
      oldest_front tr now ∈ frontTimes tr ∧
        ∀ t ∈ frontTimes tr, oldest_front tr now ≤ t) ∧
    (∀ (p : TrackedOp → Bool) (acc : List TrackedOp)
        (shs : List (List TrackedOp)),
      visitShards (traceVisitor p) acc shs =
        (acc ++ (shs.map (upTo p)).flatten, shs)) := by
  refine ⟨?_, ?_, ?_, ?_, ?_, ?_⟩
  · intro h
    simp [OpTracker.visit_ops_in_flight, h]
  · intro h
    by_cases ht : tr.tracking_enabled
    · simp [OpTracker.visit_ops_in_flight, ht, h]
    · simp [OpTracker.visit_ops_in_flight, ht]
  · intro ht hT hlt
    simp [OpTracker.visit_ops_in_flight, ht, hT, hlt]
  · intro ht hT hge
    simp [OpTracker.visit_ops_in_flight, ht, hT, Nat.not_lt.mpr hge]
  · intro hT hle
    have hne := frontTimes_ne_nil tr hT
    rw [oldest_front_eq]
    rcases foldlMin_mem (frontTimes tr) now with hmem | hmem
    · rcases List.exists_mem_of_ne_nil (frontTimes tr) hne with ⟨t0, ht0⟩
      have h1 := (foldlMin_le (frontTimes tr) now).2 t0 ht0
      have h2 := hle t0 ht0
      have heq : foldlMin now (frontTimes tr) = t0 := by omega
      refine ⟨heq ▸ ht0, ?_⟩
      intro t ht
      have := (foldlMin_le (frontTimes tr) now).2 t ht
      omega
    · refine ⟨hmem, ?_⟩
      intro t ht
      exact (foldlMin_le (frontTimes tr) now).2 t ht
  · intro p acc shs
    exact visitShards_trace p shs acc

/-- A visitor that merely counts the visited ops and always continues. -/
def countVisitor : Visitor Nat := fun s op => (s + 1, op, true)

theorem c7_visit_witness :
    sampleTracker.tracking_enabled = true ∧
      total_ops_in_flight sampleTracker ≠ 0 ∧
      sampleTracker.complaint_time ≤ 61 - oldest_front sampleTracker 61 ∧
      OpTracker.visit_ops_in_flight sampleTracker 61 0 countVisitor 0 =
        (true, 61 - oldest_front sampleTracker 61,
          (visitShards countVisitor 0 sampleTracker.sharded_in_flight_list).1,
          (visitShards countVisitor 0 sampleTracker.sharded_in_flight_list).2) :=
  ⟨rfl, by decide, by decide,
   (c7_visit_ops_in_flight sampleTracker 61 0 countVisitor 0).2.2.2.1 rfl
     (by decide) (by decide)⟩

/-- C10: the two false-returning paths of `visit_ops_in_flight` differ in
their effect on the `oldest_secs` out-parameter: with tracking disabled or
no live op it is left at its incoming value; when the oldest age is merely
below `complaint_time`, it has already been overwritten with `now` minus
the minimum front `initiated_at` across the shards (the last conjunct
identifies that value as a true minimum over the non-empty shards). -/
theorem c10_oldest_out_frame {σ : Type} (tr : OpTracker) (now o0 : Nat)
    (v : Visitor σ) (s0 : σ) :
    (tr.tracking_enabled = false →
      (tr.visit_ops_in_flight now o0 v s0).1 = false ∧
        (tr.visit_ops_in_flight now o0 v s0).2.1 = o0) ∧
    (total_ops_in_flight tr = 0 →
      (tr.visit_ops_in_flight now o0 v s0).1 = false ∧
        (tr.visit_ops_in_flight now o0 v s0).2.1 = o0) ∧
    (tr.tracking_enabled = true → total_ops_in_flight tr ≠ 0 →
      now - oldest_front tr now < tr.complaint_time →
      (tr.visit_ops_in_flight now o0 v s0).1 = false ∧
        (tr.visit_ops_in_flight now o0 v s0).2.1 =
          now - oldest_front tr now) ∧
    (total_ops_in_flight tr ≠ 0 → (∀ t ∈ frontTimes tr, t ≤ now) →
      ∃ t ∈ frontTimes tr, oldest_front tr now = t ∧
        ∀ u ∈ frontTimes tr, t ≤ u) := by
  refine ⟨?_, ?_, ?_, ?_⟩
  · intro h
    simp [OpTracker.visit_ops_in_flight, h]
  · intro h
    by_cases ht : tr.tracking_enabled
    · simp [OpTracker.visit_ops_in_flight, ht, h]
    · simp [OpTracker.visit_ops_in_flight, ht]
  · intro ht hT hlt
    simp [OpTracker.visit_ops_in_flight, ht, hT, hlt]
  · intro hT hle
    have hne := frontTimes_ne_nil tr hT
    rw [oldest_front_eq]
    rcases foldlMin_mem (frontTimes tr) now with hmem | hmem
    · rcases List.exists_mem_of_ne_nil (frontTimes tr) hne with ⟨t0, ht0⟩
      have h1 := (foldlMin_le (frontTimes tr) now).2 t0 ht0
      have h2 := hle t0 ht0
      refine ⟨t0, ht0, by omega, ?_⟩
      intro u hu
      have := (foldlMin_le (frontTimes tr) now).2 u hu
      omega
    · refine ⟨foldlMin now (frontTimes tr), hmem, rfl, ?_⟩
      intro u hu
      exact (foldlMin_le (frontTimes tr) now).2 u hu

theorem c10_oldest_witness :
    sampleTracker.tracking_enabled = true ∧
      total_ops_in_flight sampleTracker ≠ 0 ∧
      10 - oldest_front sampleTracker 10 < sampleTracker.complaint_time ∧
      ((OpTracker.visit_ops_in_flight sampleTracker 10 0 countVisitor 0).1 =
          false ∧
        (OpTracker.visit_ops_in_flight sampleTracker 10 0 countVisitor 0).2.1 =
          10 - oldest_front sampleTracker 10) :=
  ⟨rfl, by decide, by decide,
   (c10_oldest_out_frame sampleTracker 10 0 countVisitor 0).2.2.1 rfl
     (by decide) (by decide)⟩

/-- C8: the `check` lambda of the slow-op detector, when run with
`check_ops_in_flight`'s `warn_on_slow_op`. An op no older than
`now - complaint_time` stops the shard without any change. Every op older
than that increments the slow count — also after the warning limit is
reached — and continues. It is warned (one warning line appended, its
`warn_interval_multiplier` doubled exactly once) precisely when fewer than
`log_threshold` warnings were emitted so far and its backoff deadline
`initiated_at + complaint_time * multiplier` has passed; otherwise it is
skipped with no warning and no change to the op. In either case the
multiplier never decreases. -/
theorem c8_detector_step (now ct th : Nat) (op : TrackedOp)
    (slow warned : Nat) (ws : List String) :
    (now - ct ≤ op.initiated →
      checkStep now ct th (warn_on_slow_op now) (slow, warned, ws) op =
        ((slow, warned, ws), op, false)) ∧
    (op.initiated < now - ct →
      (checkStep now ct th (warn_on_slow_op now) (slow, warned, ws) op).2.2 =
          true ∧
        (checkStep now ct th (warn_on_slow_op now) (slow, warned, ws) op).1.1 =
          slow + 1 ∧
        (warned < th → op.initiated + ct * op.warn_interval_multiplier < now →
          (checkStep now ct th (warn_on_slow_op now)
              (slow, warned, ws) op).1.2.1 = warned + 1 ∧
            (checkStep now ct th (warn_on_slow_op now)
              (slow, warned, ws) op).1.2.2 = ws ++ [warnLine now op] ∧
            (checkStep now ct th (warn_on_slow_op now)
              (slow, warned, ws) op).2.1 =
              { op with warn_interval_multiplier :=
                  op.warn_interval_multiplier * 2 }) ∧
        ((th ≤ warned ∨ now ≤ op.initiated + ct * op.warn_interval_multiplier) →
          (checkStep now ct th (warn_on_slow_op now)
              (slow, warned, ws) op).1.2.1 = warned ∧
            (checkStep now ct th (warn_on_slow_op now)
              (slow, warned, ws) op).1.2.2 = ws ∧
            (checkStep now ct th (warn_on_slow_op now)
              (slow, warned, ws) op).2.1 = op) ∧
        op.warn_interval_multiplier ≤
          (checkStep now ct th (warn_on_slow_op now)
            (slow, warned, ws) op).2.1.warn_interval_multiplier) := by
  constructor
  · intro h
    simp [checkStep, h]
  · intro h
    have hstop : ¬(now - ct ≤ op.initiated) := by omega
    by_cases hth : th ≤ warned
    · refine ⟨?_, ?_, ?_, ?_, ?_⟩ <;>
        simp [checkStep, hstop, hth]
    · by_cases hbk : now ≤ op.initiated + ct * op.warn_interval_multiplier
      · refine ⟨?_, ?_, ?_, ?_, ?_⟩ <;>
          simp [checkStep, hstop, hth, hbk]
      · have hmul : op.warn_interval_multiplier ≤
            op.warn_interval_multiplier * 2 := by omega
        refine ⟨?_, ?_, ?_, ?_, ?_⟩ <;>
          simp [checkStep, warn_on_slow_op, hstop, hth, hbk, hmul]

/-- A live op in its first backoff window state: registered at time 0,
multiplier 1. -/
def opC8 : TrackedOp := { id := 7, initiated := 0, state := 1 }

theorem c8_detector_witness :
    opC8.initiated < 61 - 30 ∧
      (checkStep 61 30 5 (warn_on_slow_op 61)
        ((0 : Nat), (0 : Nat), ([] : List String)) opC8).1.1 = 0 + 1 :=
  ⟨by decide,
   ((c8_detector_step 61 30 5 opC8 0 0 []).2 (by decide)).2.1⟩

theorem getD_set_self {α : Type} :
    ∀ (l : List α) (i : Nat) (x d : α), i < l.length →
      (l.set i x).getD i d = x := by
  intro l
  induction l with
  | nil =>
    intro i x d h
    simp at h
  | cons y ys ih =>
    intro i x d h
    cases i with
    | zero => rfl
    | succ n =>
      simp only [List.set_cons_succ, List.getD_cons_succ]
      exact ih n x d (by simpa using h)

theorem getD_set_ne {α : Type} :
    ∀ (l : List α) (i j : Nat) (x d : α), i ≠ j →
      (l.set i x).getD j d = l.getD j d := by
  intro l
  induction l with
  | nil =>
    intro i j x d _
    rfl
  | cons y ys ih =>
    intro i j x d h
    cases i with
    | zero =>
      cases j with
      | zero => exact absurd rfl h
      | succ m => rfl
    | succ n =>
      cases j with
      | zero => rfl
      | succ m =>
        simp only [List.set_cons_succ, List.getD_cons_succ]
        exact ih n m x d (fun he => h (he ▸ rfl))

theorem eraseById_append_fresh (i : Nat) :
    ∀ (l : List TrackedOp) (x : TrackedOp), (∀ o ∈ l, o.id ≠ i) → x.id = i →
      eraseById i (l ++ [x]) = l := by
  intro l
  induction l with
  | nil =>
    intro x _ hx
    simp [eraseById, hx]
  | cons y ys ih =>
    intro x h hx
    have hy : y.id ≠ i := h y (List.mem_cons_self y ys)
    simp only [List.cons_append, eraseById]
    rw [if_neg hy, show ys.append [x] = ys ++ [x] from rfl,
      ih x (fun o ho => h o (List.mem_cons_of_mem y ho)) hx]

/-- C9: with tracking enabled, registering a fresh op stamps it with
`current_seq = seq + 1` and appends it to the back of shard
`current_seq % num_shards`; that shard — and, among shards, only that
one — then contains the op, and every other shard is untouched.
Unregistering removes the op from exactly that shard (it is then in no
shard), moves it with state HISTORY into the history via `insert`, and
reports it as kept; when tracking is disabled, unregister instead reports
the op destroyed and leaves the history unchanged. -/
theorem c9_register_unregister (tr : OpTracker) (op : TrackedOp) (now : Nat)
    (hN : 0 < tr.num_optracker_shards)
    (hlen : tr.sharded_in_flight_list.length = tr.num_optracker_shards)
    (htrack : tr.tracking_enabled = true)
    (hfresh : ∀ j : Nat, ∀ o ∈ getShard tr j, o.id ≠ op.id) :
    (tr.register_inflight_op op).2 = true ∧
    (tr.register_inflight_op op).1.seq = tr.seq + 1 ∧
    getShard (tr.register_inflight_op op).1
        ((tr.seq + 1) % tr.num_optracker_shards) =
      getShard tr ((tr.seq + 1) % tr.num_optracker_shards) ++
        [{ op with seq := tr.seq + 1 }] ∧
    (∀ j : Nat, j < tr.num_optracker_shards →
      ((∃ o ∈ getShard (tr.register_inflight_op op).1 j, o.id = op.id) ↔
        j = (tr.seq + 1) % tr.num_optracker_shards)) ∧
    (∀ j : Nat, j ≠ (tr.seq + 1) % tr.num_optracker_shards →
      getShard (tr.register_inflight_op op).1 j = getShard tr j) ∧
    (∀ j : Nat, ∀ o ∈ getShard
        ((tr.register_inflight_op op).1.unregister_inflight_op
          { op with seq := tr.seq + 1 } now).1 j,
      o.id ≠ op.id) ∧
    ((tr.register_inflight_op op).1.unregister_inflight_op
        { op with seq := tr.seq + 1 } now).2 = UnregResult.to_history ∧
    ((tr.register_inflight_op op).1.unregister_inflight_op
        { op with seq := tr.seq + 1 } now).1.history =
      tr.history.insert now { op with seq := tr.seq + 1, state := 2 } ∧
    (∀ (tr2 : OpTracker) (op2 : TrackedOp) (now2 : Nat),
      tr2.tracking_enabled = false →
      (tr2.unregister_inflight_op op2 now2).2 = UnregResult.destroyed ∧
        (tr2.unregister_inflight_op op2 now2).1.history = tr2.history) := by
  have hreg : tr.register_inflight_op op =
      ({ tr with
          seq := tr.seq + 1,
          sharded_in_flight_list :=
            tr.sharded_in_flight_list.set
              ((tr.seq + 1) % tr.num_optracker_shards)
              (getShard tr ((tr.seq + 1) % tr.num_optracker_shards) ++
                [{ op with seq := tr.seq + 1 }]) }, true) := by
    simp [OpTracker.register_inflight_op, htrack]
  have hidx : (tr.seq + 1) % tr.num_optracker_shards <
      tr.sharded_in_flight_list.length := by
    rw [hlen]
    exact Nat.mod_lt _ hN
  have h3 : getShard (tr.register_inflight_op op).1
      ((tr.seq + 1) % tr.num_optracker_shards) =
      getShard tr ((tr.seq + 1) % tr.num_optracker_shards) ++
        [{ op with seq := tr.seq + 1 }] := by
    rw [hreg]
    exact getD_set_self _ _ _ _ hidx
  have h5 : ∀ j : Nat, j ≠ (tr.seq + 1) % tr.num_optracker_shards →
      getShard (tr.register_inflight_op op).1 j = getShard tr j := by
    intro j hj
    rw [hreg]
    exact getD_set_ne _ _ _ _ _ (fun he => hj he.symm)
  have hunreg : (tr.register_inflight_op op).1.unregister_inflight_op
      { op with seq := tr.seq + 1 } now =
      ({ (tr.register_inflight_op op).1 with
          sharded_in_flight_list :=
            (tr.register_inflight_op op).1.sharded_in_flight_list.set
              ((tr.seq + 1) % tr.num_optracker_shards)
              (eraseById op.id (getShard (tr.register_inflight_op op).1
                ((tr.seq + 1) % tr.num_optracker_shards))),
          history := (tr.register_inflight_op op).1.history.insert now
            { op with seq := tr.seq + 1, state := 2 } },
        UnregResult.to_history) := by
    rw [hreg]
    simp [OpTracker.unregister_inflight_op, htrack]
  have hunshard : eraseById op.id (getShard (tr.register_inflight_op op).1
      ((tr.seq + 1) % tr.num_optracker_shards)) =
      getShard tr ((tr.seq + 1) % tr.num_optracker_shards) := by
    rw [h3]
    exact eraseById_append_fresh op.id _ _
      (hfresh ((tr.seq + 1) % tr.num_optracker_shards)) rfl
  have hlen' : (tr.register_inflight_op op).1.sharded_in_flight_list.length =
      tr.sharded_in_flight_list.length := by
    rw [hreg]
    exact List.length_set _ _ _
  refine ⟨by rw [hreg], by rw [hreg], h3, ?_, h5, ?_, by rw [hunreg], ?_, ?_⟩
  · intro j _
    constructor
    · intro hex
      rcases hex with ⟨o, ho, hoid⟩
      by_contra hne
      rw [h5 j hne] at ho
      exact hfresh j o ho hoid
    · intro hj
      subst hj
      refine ⟨{ op with seq := tr.seq + 1 }, ?_, rfl⟩
      rw [h3]
      exact List.mem_append_right _ (List.mem_singleton_self _)
  · intro j o ho
    by_cases hj : j = (tr.seq + 1) % tr.num_optracker_shards
    · subst hj
      rw [hunreg] at ho
      have : getShard
          ({ (tr.register_inflight_op op).1 with
              sharded_in_flight_list :=
                (tr.register_inflight_op op).1.sharded_in_flight_list.set
                  ((tr.seq + 1) % tr.num_optracker_shards)
                  (eraseById op.id (getShard (tr.register_inflight_op op).1
                    ((tr.seq + 1) % tr.num_optracker_shards))),
              history := (tr.register_inflight_op op).1.history.insert now
                { op with seq := tr.seq + 1, state := 2 } } : OpTracker)
          ((tr.seq + 1) % tr.num_optracker_shards) =
          eraseById op.id (getShard (tr.register_inflight_op op).1
            ((tr.seq + 1) % tr.num_optracker_shards)) :=
        getD_set_self _ _ _ _ (by rw [hlen']; exact hidx)
      rw [this, hunshard] at ho
      exact hfresh _ o ho
    · rw [hunreg] at ho
      have : getShard
          ({ (tr.register_inflight_op op).1 with
              sharded_in_flight_list :=
                (tr.register_inflight_op op).1.sharded_in_flight_list.set
                  ((tr.seq + 1) % tr.num_optracker_shards)
                  (eraseById op.id (getShard (tr.register_inflight_op op).1
                    ((tr.seq + 1) % tr.num_optracker_shards))),
              history := (tr.register_inflight_op op).1.history.insert now
                { op with seq := tr.seq + 1, state := 2 } } : OpTracker) j =
          getShard (tr.register_inflight_op op).1 j :=
        getD_set_ne _ _ _ _ _ (fun he => hj he.symm)
      rw [this, h5 j hj] at ho
      exact hfresh j o ho
  · rw [hunreg, hreg]
  · intro tr2 op2 now2 h2
    constructor
    · simp [OpTracker.unregister_inflight_op, h2]
    · simp [OpTracker.unregister_inflight_op, h2]

/-- A fresh op about to be registered. -/
def opReg : TrackedOp := { id := 9, initiated := 4 }

/-- A two-shard tracker (shard 0 already holds one op) for the
register/unregister witness. -/
def sampleTracker9 : OpTracker :=
  { tracking_enabled := true
    num_optracker_shards := 2
    seq := 0
    sharded_in_flight_list := [[opW1], []]
    history := initHistory 4 100 2 3
    complaint_time := 30
    log_threshold := 5 }

theorem sampleTracker9_fresh :
    ∀ j : Nat, ∀ o ∈ getShard sampleTracker9 j, o.id ≠ opReg.id := by
  intro j o ho
  match j with
  | 0 =>
    have h : o = opW1 := by simpa [getShard, sampleTracker9] using ho
    subst h
    decide
  | 1 => simp [getShard, sampleTracker9] at ho
  | n + 2 =>
    simp only [getShard] at ho
    rw [List.getD_eq_default] at ho
    · exact absurd ho (List.not_mem_nil o)
    · show sampleTracker9.sharded_in_flight_list.length ≤ n + 2
      simp [sampleTracker9]

theorem c9_register_witness :
    0 < sampleTracker9.num_optracker_shards ∧
      sampleTracker9.sharded_in_flight_list.length =
        sampleTracker9.num_optracker_shards ∧
      (sampleTracker9.register_inflight_op opReg).2 = true ∧
      ((sampleTracker9.register_inflight_op opReg).1.unregister_inflight_op
          { opReg with seq := sampleTracker9.seq + 1 } 99).2 =
        UnregResult.to_history :=
  ⟨by decide, by decide,
   (c9_register_unregister sampleTracker9 opReg 99 (by decide) (by decide) rfl
     sampleTracker9_fresh).1,
   (c9_register_unregister sampleTracker9 opReg 99 (by decide) (by decide) rfl
     sampleTracker9_fresh).2.2.2.2.2.2.1⟩
